import Mathlib

/-!
The default top-k result collector of `faiss/impl/ResultCollector.h`.

A shallow embedding of `DefaultCollector::collect` and
`DefaultCollector::post_process`, together with the two heap primitives
`maxheap_push` and `maxheap_replace_top` that `collect` calls. The primitives
live in `faiss/utils/Heap.h`, which is not among the sources; they are modelled
from the specification's description of them.

Conventions of the embedding

* `float` distances are an arbitrary type `α` with a decidable `<`: the
  collector only ever compares distances with `<`. The properties that need
  totally ordered distances (no NaN) are stated for a linear order on `α`;
  `FloatVal` is the instance with a NaN, on which every comparison is false.
* `idx_t` identifiers are an arbitrary type `ι`: they are only copied.
* `int k` and `int& nres` are `Int`; `++nres` fails when it would leave the
  range of `int`; the conversion to the `size_t` argument of the heap
  primitives is `toSizeT`.
* `float* bh_val` and `idx_t* bh_ids` are lists (the caller-owned buffers);
  every read and write is checked and yields `none` out of bounds, so a
  result `some _` means that the call stayed inside both buffers.
-/

namespace faiss

/-- Largest value of the C type `int`. -/
def INT_MAX : Int := 2147483647

/-- Conversion of an `int` to the `size_t` parameter of the heap primitives. -/
def toSizeT (x : Int) : Nat := (x % 18446744073709551616).toNat

/-- The caller-owned retained set that `collect` receives by reference:
the counter `nres` and the two parallel buffers `bh_val`, `bh_ids`. -/
structure ResultHeap (α ι : Type) where
  nres : Int
  bh_val : List α
  bh_ids : List ι
deriving DecidableEq

/-- Modelled from the spec: a checked array write `a[i] = v`, as performed by
the heap primitives of `faiss/utils/Heap.h` (absent from the sources) on the
caller-owned buffers; `none` when `i` is out of bounds. -/
def writeAt {β : Type} (l : List β) (i : Nat) (v : β) : Option (List β) :=
  if i < l.length then some (l.set i v) else none

/-- Modelled from the spec: the checked exchange of the entries `i` and `j` of
one buffer, the step of the sift loops of `faiss/utils/Heap.h` (absent from the
sources); `none` when an index is out of bounds. -/
def swapAt {β : Type} (l : List β) (i j : Nat) : Option (List β) :=
  match l[i]?, l[j]? with
  | some a, some b => some ((l.set i b).set j a)
  | _, _ => none

/-- Modelled from the spec: the sift-up loop of the heap insert of
`faiss/utils/Heap.h` (absent from the sources), "standard heap-insert: append
then sift up". While the entry at `i` is not the root and its parent
`(i - 1) / 2` holds a strictly smaller distance, the two entries (distance and
identifier) are exchanged and the loop continues at the parent. -/
def siftUp {α ι : Type} [LT α] [DecidableRel (fun a b : α => a < b)] :
    Nat → List α → List ι → Nat → Option (List α × List ι)
  | 0, _, _, _ => none
  | fuel + 1, vals, ids, i =>
    if i = 0 then some (vals, ids)
    else
      match vals[i]?, vals[(i - 1) / 2]? with
      | some c, some p =>
        if p < c then
          match swapAt vals i ((i - 1) / 2), swapAt ids i ((i - 1) / 2) with
          | some vals', some ids' => siftUp fuel vals' ids' ((i - 1) / 2)
          | _, _ => none
        else some (vals, ids)
      | _, _ => none

/-- Modelled from the spec: `maxheap_push` of `faiss/utils/Heap.h` (absent from
the sources), called with the size `k` the heap has after the insertion:
"standard heap-insert: append then sift up". The candidate is written at index
`k - 1` of both buffers and sifted up. -/
def maxheap_push {α ι : Type} [LT α] [DecidableRel (fun a b : α => a < b)]
    (k : Nat) (bh_val : List α) (bh_ids : List ι) (val : α) (id : ι) :
    Option (List α × List ι) :=
  if k = 0 then none
  else
    match writeAt bh_val (k - 1) val, writeAt bh_ids (k - 1) id with
    | some vals, some ids => siftUp k vals ids (k - 1)
    | _, _ => none

/-- Modelled from the spec: the child selection of the sift-down of
`faiss/utils/Heap.h` (absent from the sources). Index of the child of `i` with
the larger distance, among the children inside the first `n` entries (the
caller has checked that `2 * i + 1 < n`). -/
def largerChild {α : Type} [LT α] [DecidableRel (fun a b : α => a < b)] (n : Nat) (vals : List α) (i : Nat) :
    Option Nat :=
  if 2 * i + 2 < n then
    match vals[2 * i + 1]?, vals[2 * i + 2]? with
    | some l, some r => some (if l < r then 2 * i + 2 else 2 * i + 1)
    | _, _ => none
  else some (2 * i + 1)

/-- Modelled from the spec: the sift-down loop of the replace-top of
`faiss/utils/Heap.h` (absent from the sources), "a single sift-down". While the
entry at `i` has a child inside the first `n` entries whose distance is
strictly larger, it is exchanged with its larger child and the loop continues
there. -/
def siftDown {α ι : Type} [LT α] [DecidableRel (fun a b : α => a < b)] :
    Nat → Nat → List α → List ι → Nat → Option (List α × List ι)
  | 0, _, _, _, _ => none
  | fuel + 1, n, vals, ids, i =>
    if n ≤ 2 * i + 1 then some (vals, ids)
    else
      match largerChild n vals i with
      | none => none
      | some c =>
        match vals[i]?, vals[c]? with
        | some x, some y =>
          if x < y then
            match swapAt vals i c, swapAt ids i c with
            | some vals', some ids' => siftDown fuel n vals' ids' c
            | _, _ => none
          else some (vals, ids)
        | _, _ => none

/-- Modelled from the spec: `maxheap_replace_top` of `faiss/utils/Heap.h`
(absent from the sources), called with the heap size `k`: "replace the root with
the candidate (remove-root-then-insert, a single sift-down)". The candidate
overwrites index `0` of both buffers and is sifted down. -/
def maxheap_replace_top {α ι : Type} [LT α] [DecidableRel (fun a b : α => a < b)]
    (k : Nat) (bh_val : List α) (bh_ids : List ι) (val : α) (id : ι) :
    Option (List α × List ι) :=
  match writeAt bh_val 0 val, writeAt bh_ids 0 id with
  | some vals, some ids => siftDown (k + 1) k vals ids 0
  | _, _ => none

/-- `DefaultCollector::collect` (ResultCollector.h, lines 49-61).
```
if (nres < k) {
    faiss::maxheap_push(++nres, bh_val, bh_ids, val, ids);
} else if (val < bh_val[0]) {
    faiss::maxheap_replace_top(nres, bh_val, bh_ids, val, ids);
}
```
-/
def DefaultCollector.collect {α ι : Type} [LT α] [DecidableRel (fun a b : α => a < b)]
    (k : Int) (s : ResultHeap α ι) (val : α) (ids : ι) : Option (ResultHeap α ι) :=
  if s.nres < k then
    if s.nres + 1 ≤ INT_MAX then
      match maxheap_push (toSizeT (s.nres + 1)) s.bh_val s.bh_ids val ids with
      | some (vals', ids') => some ⟨s.nres + 1, vals', ids'⟩
      | none => none
    else none
  else
    match s.bh_val[0]? with
    | some top =>
      if val < top then
        match maxheap_replace_top (toSizeT s.nres) s.bh_val s.bh_ids val ids with
        | some (vals', ids') => some ⟨s.nres, vals', ids'⟩
        | none => none
      else some s
    | none => none

/-- `DefaultCollector::post_process` (ResultCollector.h, lines 67-69): the
body is empty, the identifier array is returned as it was received. -/
def DefaultCollector.post_process {ι : Type} (_nres : Int) (bh_ids : List ι) : List ι :=
  bh_ids

/-- The retained set after the final `post_process(nres, bh_ids)` call: only the
identifier buffer is handed to `post_process`. -/
def DefaultCollector.finish {α ι : Type} (s : ResultHeap α ι) : ResultHeap α ι :=
  ⟨s.nres, s.bh_val, DefaultCollector.post_process s.nres s.bh_ids⟩

/-- The scan loop: `collect` is called on each candidate `(distance, id)` in
order, threading the retained set through the calls. -/
def DefaultCollector.collectAll {α ι : Type} [LT α] [DecidableRel (fun a b : α => a < b)]
    (k : Int) : ResultHeap α ι → List (α × ι) → Option (ResultHeap α ι)
  | s, [] => some s
  | s, c :: cs =>
    match DefaultCollector.collect k s c.1 c.2 with
    | some s' => DefaultCollector.collectAll k s' cs
    | none => none

/-- The retained distances: the first `nres` entries of `bh_val`. -/
def ResultHeap.dists {α ι : Type} (s : ResultHeap α ι) : List α :=
  s.bh_val.take s.nres.toNat

/-- The retained pairs `(bh_val[i], bh_ids[i])`, `i < nres`. -/
def ResultHeap.pairs {α ι : Type} (s : ResultHeap α ι) : List (α × ι) :=
  (s.bh_val.zip s.bh_ids).take s.nres.toNat

/-- The first `n` entries of `l` form a binary max-heap: every entry is `≥`
both of its children (the children of index `i` are `2 i + 1` and `2 i + 2`). -/
def IsMaxHeap {α : Type} [LE α] (n : Nat) (l : List α) : Prop :=
  ∀ i c, c < n → (c = 2 * i + 1 ∨ c = 2 * i + 2) →
    ∀ a b, l[i]? = some a → l[c]? = some b → b ≤ a

/-- The `k` smallest entries of a list of distances (with multiplicity). -/
def kSmallest {α : Type} [LinearOrder α] (k : Nat) (l : List α) : List α :=
  (l.insertionSort (fun a b => a ≤ b)).take k

/-- The entry conditions of `collect`: the capacity `k` is a positive `int`,
`0 ≤ nres ≤ k`, and both buffers have at least `k` entries. -/
def Pre {α ι : Type} (k : Int) (s : ResultHeap α ι) : Prop :=
  0 < k ∧ k ≤ INT_MAX ∧ 0 ≤ s.nres ∧ s.nres ≤ k ∧
    k ≤ (s.bh_val.length : Int) ∧ k ≤ (s.bh_ids.length : Int)

instance {α ι : Type} (k : Int) (s : ResultHeap α ι) : Decidable (Pre k s) := by
  unfold Pre; infer_instance

/-- A `float` distance with its NaN: either NaN or a number. The numbers are
represented by integers, which is all the concrete runs below need; what
matters is that every comparison with a NaN operand is false, as for the C
operators `<` and `<=` on `float`. -/
inductive FloatVal where
  | nan : FloatVal
  | num : Int → FloatVal
deriving DecidableEq

/-- The C comparison `a < b` on `float`: false when an operand is NaN. -/
def FloatVal.ltb : FloatVal → FloatVal → Bool
  | .num x, .num y => decide (x < y)
  | _, _ => false

/-- The C comparison `a <= b` on `float`: false when an operand is NaN. -/
def FloatVal.leb : FloatVal → FloatVal → Bool
  | .num x, .num y => decide (x ≤ y)
  | _, _ => false

instance FloatVal.instLT : LT FloatVal := ⟨fun a b => FloatVal.ltb a b = true⟩

instance FloatVal.instLE : LE FloatVal := ⟨fun a b => FloatVal.leb a b = true⟩

instance FloatVal.decLt : DecidableRel (fun a b : FloatVal => a < b) :=
  fun a b => inferInstanceAs (Decidable (FloatVal.ltb a b = true))

instance FloatVal.decLe : DecidableRel (fun a b : FloatVal => a ≤ b) :=
  fun a b => inferInstanceAs (Decidable (FloatVal.leb a b = true))

/-! ## Predicates used in the proofs -/

/-- Parent form of the heap property: every non-root entry among the first
`n` is `≤` its parent `(j - 1) / 2`. -/
def HeapParent {α : Type} [LinearOrder α] (n : Nat) (l : List α) : Prop :=
  ∀ j, 0 < j → j < n → ∀ a b, l[j]? = some a → l[(j - 1) / 2]? = some b → a ≤ b

/-- What the heap primitives may do to the two buffers when working on the
first `n` entries: lengths are kept, the first `n` pairs are rearranged, and
every entry at an index `≥ n` is left as it was. -/
structure Rearranged {α ι : Type} (n : Nat) (vals : List α) (ids : List ι)
    (vals' : List α) (ids' : List ι) : Prop where
  len_val : vals'.length = vals.length
  len_ids : ids'.length = ids.length
  perm : ((vals'.zip ids').take n).Perm ((vals.zip ids).take n)
  frame_val : ∀ x, n ≤ x → vals'[x]? = vals[x]?
  frame_ids : ∀ x, n ≤ x → ids'[x]? = ids[x]?

/-- Loop invariant of sift-up at position `i`: the heap property holds at every
non-root entry except `i`, and every child of `i` is `≤` the parent of `i`. -/
def UpInv {α : Type} [LinearOrder α] (n i : Nat) (l : List α) : Prop :=
  (∀ j, 0 < j → j < n → j ≠ i → ∀ a b, l[j]? = some a → l[(j - 1) / 2]? = some b → a ≤ b) ∧
  (∀ c, 0 < i → 0 < c → c < n → (c - 1) / 2 = i →
    ∀ a b, l[c]? = some a → l[(i - 1) / 2]? = some b → a ≤ b)

/-- Loop invariant of sift-down at position `i`: the heap property holds at
every non-root entry that is not a child of `i`, and every child of `i` is `≤`
the parent of `i`. -/
def DownInv {α : Type} [LinearOrder α] (n i : Nat) (l : List α) : Prop :=
  (∀ j, 0 < j → j < n → (j - 1) / 2 ≠ i →
    ∀ a b, l[j]? = some a → l[(j - 1) / 2]? = some b → a ≤ b) ∧
  (∀ c, 0 < i → 0 < c → c < n → (c - 1) / 2 = i →
    ∀ a b, l[c]? = some a → l[(i - 1) / 2]? = some b → a ≤ b)

/-- The candidates seen so far, `M`, split into the retained distances and a
rest `D` of discarded and evicted ones, none of which is smaller than a
retained one; nothing has been dropped while the set is not full. -/
def Sel {α ι : Type} [LinearOrder α] (k : Int) (s : ResultHeap α ι) (M : Multiset α) : Prop :=
  ∃ D : Multiset α, M = (s.dists : Multiset α) + D ∧
    (∀ x ∈ s.dists, ∀ y ∈ D, x ≤ y) ∧ (s.nres < k → D = 0)

/-! ## Lists: exchanging two entries -/

theorem set_set_perm {β : Type} (l : List β) (i j : Nat) (a b : β)
    (ha : l[i]? = some a) (hb : l[j]? = some b) (hij : i ≠ j) :
    ((l.set i b).set j a).Perm l := by
  classical
  obtain ⟨hi, rfl⟩ := List.getElem?_eq_some.1 ha
  obtain ⟨hj, rfl⟩ := List.getElem?_eq_some.1 hb
  rw [List.perm_iff_count]
  intro x
  have hj' : j < (l.set i l[j]).length := by simpa using hj
  have h1 := List.count_set l[j] x l i hi
  have h2 := List.count_set l[i] x (l.set i l[j]) j hj'
  have h4 : (if l[i] == x then 1 else 0) ≤ l.count x := List.boole_getElem_le_count x l i hi
  rw [List.getElem_set_ne hij hj'] at h2
  rw [h2, h1]
  by_cases c1 : (l[i] == x) = true <;> by_cases c2 : (l[j] == x) = true <;>
    simp only [c1, c2, if_true, if_false] at h4 ⊢ <;> omega

theorem zip_set_set {β γ : Type} (l₁ : List β) (l₂ : List γ) (i : Nat) (a : β) (b : γ) :
    (l₁.set i a).zip (l₂.set i b) = (l₁.zip l₂).set i (a, b) := by
  induction l₁ generalizing l₂ i with
  | nil => simp
  | cons x xs ih =>
    cases l₂ with
    | nil => simp
    | cons y ys => cases i <;> simp [ih]

theorem getElem?_set_set {β : Type} (l : List β) (i j : Nat) (a b : β)
    (ha : l[i]? = some a) (hb : l[j]? = some b) (x : Nat) :
    ((l.set i b).set j a)[x]? =
      if x = j then some a else if x = i then some b else l[x]? := by
  obtain ⟨hi, -⟩ := List.getElem?_eq_some.1 ha
  obtain ⟨hj, -⟩ := List.getElem?_eq_some.1 hb
  simp only [List.getElem?_set, List.length_set]
  by_cases h1 : x = j
  · subst h1; simp [hj]
  · by_cases h2 : x = i
    · subst h2; simp [hi, h1, Ne.symm h1]
    · simp [h1, h2, Ne.symm h1, Ne.symm h2]

theorem swapAt_eq {β : Type} (l : List β) (i j : Nat) (a b : β)
    (ha : l[i]? = some a) (hb : l[j]? = some b) :
    swapAt l i j = some ((l.set i b).set j a) := by
  simp [swapAt, ha, hb]

theorem Rearranged.refl {α ι : Type} (n : Nat) (vals : List α) (ids : List ι) :
    Rearranged n vals ids vals ids :=
  ⟨rfl, rfl, List.Perm.refl _, fun _ _ => rfl, fun _ _ => rfl⟩

theorem Rearranged.trans {α ι : Type} {n : Nat} {v₁ v₂ v₃ : List α} {i₁ i₂ i₃ : List ι}
    (h₁ : Rearranged n v₁ i₁ v₂ i₂) (h₂ : Rearranged n v₂ i₂ v₃ i₃) :
    Rearranged n v₁ i₁ v₃ i₃ :=
  ⟨h₂.len_val.trans h₁.len_val, h₂.len_ids.trans h₁.len_ids, h₂.perm.trans h₁.perm,
    fun x hx => (h₂.frame_val x hx).trans (h₁.frame_val x hx),
    fun x hx => (h₂.frame_ids x hx).trans (h₁.frame_ids x hx)⟩

/-- Exchanging the entries `i ≠ j` (both below `n`) of both buffers rearranges
the first `n` pairs. -/
theorem Rearranged.swap {α ι : Type} (n : Nat) (vals : List α) (ids : List ι)
    (i j : Nat) (hi : i < n) (hj : j < n) (hij : i ≠ j)
    (a b : α) (ha : vals[i]? = some a) (hb : vals[j]? = some b)
    (c d : ι) (hc : ids[i]? = some c) (hd : ids[j]? = some d) :
    Rearranged n vals ids ((vals.set i b).set j a) ((ids.set i d).set j c) := by
  refine ⟨by simp, by simp, ?_, ?_, ?_⟩
  · rw [zip_set_set, zip_set_set, List.set_take, List.set_take]
    apply set_set_perm _ _ _ _ _ _ _ hij
    · rw [List.getElem?_take_of_lt hi]
      simp [List.getElem?_zip_eq_some, ha, hc]
    · rw [List.getElem?_take_of_lt hj]
      simp [List.getElem?_zip_eq_some, hb, hd]
  · intro x hx
    rw [getElem?_set_set _ _ _ _ _ ha hb]
    have h1 : x ≠ j := by omega
    have h2 : x ≠ i := by omega
    simp [h1, h2]
  · intro x hx
    rw [getElem?_set_set _ _ _ _ _ hc hd]
    have h1 : x ≠ j := by omega
    have h2 : x ≠ i := by omega
    simp [h1, h2]

/-! ## The sift-up loop -/

theorem exists_getElem? {β : Type} (l : List β) (i : Nat) (h : i < l.length) :
    ∃ a, l[i]? = some a :=
  ⟨_, List.getElem?_eq_getElem h⟩

/-- The sift-up loop returns (the fuel `i + 1` is enough, and every access is
in bounds) and only rearranges the first `n` pairs. -/
theorem siftUp_run {α ι : Type} [LinearOrder α] (n : Nat) :
    ∀ (fuel : Nat) (vals : List α) (ids : List ι) (i : Nat),
      i < fuel → i < n → n ≤ vals.length → n ≤ ids.length →
      ∃ vals' ids', siftUp fuel vals ids i = some (vals', ids') ∧
        Rearranged n vals ids vals' ids' := by
  intro fuel
  induction fuel with
  | zero => intro vals ids i h; omega
  | succ fuel ih =>
    intro vals ids i hf hi hv hd
    unfold siftUp
    by_cases h0 : i = 0
    · exact ⟨vals, ids, by simp [h0], Rearranged.refl _ _ _⟩
    · obtain ⟨c, hc⟩ := exists_getElem? vals i (by omega)
      obtain ⟨p, hp⟩ := exists_getElem? vals ((i - 1) / 2) (by omega)
      obtain ⟨ci, hci⟩ := exists_getElem? ids i (by omega)
      obtain ⟨pi, hpi⟩ := exists_getElem? ids ((i - 1) / 2) (by omega)
      simp only [h0, if_false, hc, hp]
      by_cases hlt : p < c
      · simp only [hlt, if_true, swapAt_eq vals _ _ _ _ hc hp, swapAt_eq ids _ _ _ _ hci hpi]
        have hr := Rearranged.swap n vals ids i ((i - 1) / 2) hi (by omega) (by omega)
          c p hc hp ci pi hci hpi
        obtain ⟨vals', ids', hs, hr'⟩ := ih ((vals.set i p).set ((i - 1) / 2) c)
          ((ids.set i pi).set ((i - 1) / 2) ci) ((i - 1) / 2) (by omega) (by omega)
          (by simpa using hv) (by simpa using hd)
        exact ⟨vals', ids', hs, hr.trans hr'⟩
      · exact ⟨vals, ids, by simp [hlt], Rearranged.refl _ _ _⟩

theorem upInv_step {α : Type} [LinearOrder α] {n i : Nat} {l : List α} {c p : α}
    (hinv : UpInv n i l) (h0 : i ≠ 0) (hi : i < n)
    (hc : l[i]? = some c) (hp : l[(i - 1) / 2]? = some p) (hlt : p < c) :
    UpInv n ((i - 1) / 2) ((l.set i p).set ((i - 1) / 2) c) := by
  have hget := getElem?_set_set l i ((i - 1) / 2) c p hc hp
  constructor
  · intro j hj0 hjn hjP a b ha hb
    rw [hget] at ha hb
    simp only [hjP, if_false] at ha
    by_cases hji : j = i
    · subst hji
      simp only [if_true] at ha hb
      cases ha; cases hb
      exact le_of_lt hlt
    · simp only [hji, if_false] at ha
      by_cases hq : (j - 1) / 2 = (i - 1) / 2
      · simp only [hq, if_true] at hb
        cases hb
        exact le_of_lt (lt_of_le_of_lt (hinv.1 j hj0 hjn hji a p ha (hq ▸ hp)) hlt)
      · simp only [hq, if_false] at hb
        by_cases hq2 : (j - 1) / 2 = i
        · simp only [hq2, if_true] at hb
          cases hb
          exact hinv.2 j (by omega) hj0 hjn hq2 a _ ha hp
        · simp only [hq2, if_false] at hb
          exact hinv.1 j hj0 hjn hji a b ha hb
  · intro d hP0 hd0 hdn hdP a b ha hb
    rw [hget] at ha hb
    have e1 : ((i - 1) / 2 - 1) / 2 ≠ (i - 1) / 2 := by omega
    have e2 : ((i - 1) / 2 - 1) / 2 ≠ i := by omega
    have e3 : d ≠ (i - 1) / 2 := by omega
    simp only [e1, e2, if_false] at hb
    simp only [e3, if_false] at ha
    have hpb : p ≤ b := hinv.1 ((i - 1) / 2) hP0 (by omega) (by omega) p b hp hb
    by_cases hdi : d = i
    · simp only [hdi, if_true] at ha
      cases ha
      exact hpb
    · simp only [hdi, if_false] at ha
      exact le_trans (hinv.1 d hd0 hdn hdi a p ha (hdP ▸ hp)) hpb

/-- Sift-up restores the heap property. -/
theorem siftUp_heap {α ι : Type} [LinearOrder α] (n : Nat) :
    ∀ (fuel : Nat) (vals : List α) (ids : List ι) (i : Nat) (r : List α × List ι),
      siftUp fuel vals ids i = some r → i < n → UpInv n i vals → HeapParent n r.1 := by
  intro fuel
  induction fuel with
  | zero => intro vals ids i r h; simp [siftUp] at h
  | succ fuel ih =>
    intro vals ids i r h hi hinv
    unfold siftUp at h
    by_cases h0 : i = 0
    · simp only [h0, if_true, Option.some.injEq] at h
      subst h
      intro j hj0 hjn a b ha hb
      exact hinv.1 j hj0 hjn (by omega) a b ha hb
    · simp only [h0, if_false] at h
      split at h
      · rename_i c p hc hp
        by_cases hlt : p < c
        · simp only [hlt, if_true] at h
          split at h
          · rename_i vals' ids' hv hd
            rw [swapAt_eq vals _ _ _ _ hc hp] at hv
            cases hv
            exact ih _ _ _ r h (by omega) (upInv_step hinv h0 hi hc hp hlt)
          · cases h
        · simp only [hlt, if_false, Option.some.injEq] at h
          subst h
          intro j hj0 hjn a b ha hb
          by_cases hji : j = i
          · subst hji
            rw [hc] at ha; rw [hp] at hb
            cases ha; cases hb
            exact le_of_not_lt hlt
          · exact hinv.1 j hj0 hjn hji a b ha hb
      · cases h

/-! ## The sift-down loop -/

/-- The selected child is a child of `i` below `n`, and no child of `i` below
`n` holds a larger distance. -/
theorem largerChild_some {α : Type} [LinearOrder α] {n : Nat} {vals : List α} {i c : Nat}
    (h : largerChild n vals i = some c) (hn : 2 * i + 1 < n) :
    (c = 2 * i + 1 ∨ c = 2 * i + 2) ∧ c < n ∧
      ∀ d, 0 < d → d < n → (d - 1) / 2 = i →
        ∀ a y, vals[d]? = some a → vals[c]? = some y → a ≤ y := by
  unfold largerChild at h
  by_cases h2 : 2 * i + 2 < n
  · simp only [h2, if_true] at h
    split at h
    · rename_i l r hl hr
      simp only [Option.some.injEq] at h
      by_cases hlr : l < r
      · simp only [hlr, if_true] at h
        subst h
        refine ⟨Or.inr rfl, h2, ?_⟩
        intro d hd0 hdn hdi a y ha hy
        rw [hr] at hy; cases hy
        have hd : d = 2 * i + 1 ∨ d = 2 * i + 2 := by omega
        rcases hd with hd | hd
        · subst hd; rw [hl] at ha; cases ha; exact le_of_lt hlr
        · subst hd; rw [hr] at ha; cases ha; exact le_refl _
      · simp only [hlr, if_false] at h
        subst h
        refine ⟨Or.inl rfl, hn, ?_⟩
        intro d hd0 hdn hdi a y ha hy
        rw [hl] at hy; cases hy
        have hd : d = 2 * i + 1 ∨ d = 2 * i + 2 := by omega
        rcases hd with hd | hd
        · subst hd; rw [hl] at ha; cases ha; exact le_refl _
        · subst hd; rw [hr] at ha; cases ha; exact le_of_not_lt hlr
    · cases h
  · simp only [h2, if_false, Option.some.injEq] at h
    subst h
    refine ⟨Or.inl rfl, hn, ?_⟩
    intro d hd0 hdn hdi a y ha hy
    have hd : d = 2 * i + 1 := by omega
    subst hd; rw [ha] at hy; cases hy; exact le_refl _

theorem largerChild_exists {α : Type} [LinearOrder α] (n : Nat) (vals : List α) (i : Nat)
    (hv : n ≤ vals.length) : ∃ c, largerChild n vals i = some c := by
  unfold largerChild
  by_cases h2 : 2 * i + 2 < n
  · obtain ⟨l, hl⟩ := exists_getElem? vals (2 * i + 1) (by omega)
    obtain ⟨r, hr⟩ := exists_getElem? vals (2 * i + 2) (by omega)
    simp [h2, hl, hr]
  · simp [h2]

/-- The sift-down loop returns (the fuel `n - i + 1` is enough, and every
access is in bounds) and only rearranges the first `n` pairs. -/
theorem siftDown_run {α ι : Type} [LinearOrder α] (n : Nat) :
    ∀ (fuel : Nat) (vals : List α) (ids : List ι) (i : Nat),
      n < fuel + i → i ≤ n → n ≤ vals.length → n ≤ ids.length →
      ∃ vals' ids', siftDown fuel n vals ids i = some (vals', ids') ∧
        Rearranged n vals ids vals' ids' := by
  intro fuel
  induction fuel with
  | zero => intro vals ids i h; omega
  | succ fuel ih =>
    intro vals ids i hf hi hv hd
    unfold siftDown
    by_cases hn : n ≤ 2 * i + 1
    · exact ⟨vals, ids, by simp [hn], Rearranged.refl _ _ _⟩
    · obtain ⟨c, hc⟩ := largerChild_exists n vals i hv
      obtain ⟨hc1, hc2, -⟩ := largerChild_some hc (by omega)
      obtain ⟨x, hx⟩ := exists_getElem? vals i (by omega)
      obtain ⟨y, hy⟩ := exists_getElem? vals c (by omega)
      obtain ⟨xi, hxi⟩ := exists_getElem? ids i (by omega)
      obtain ⟨yi, hyi⟩ := exists_getElem? ids c (by omega)
      simp only [hn, if_false, hc, hx, hy]
      by_cases hlt : x < y
      · simp only [hlt, if_true, swapAt_eq vals _ _ _ _ hx hy, swapAt_eq ids _ _ _ _ hxi hyi]
        have hr := Rearranged.swap n vals ids i c (by omega) hc2 (by omega)
          x y hx hy xi yi hxi hyi
        obtain ⟨vals', ids', hs, hr'⟩ := ih ((vals.set i y).set c x)
          ((ids.set i yi).set c xi) c (by omega) (by omega)
          (by simpa using hv) (by simpa using hd)
        exact ⟨vals', ids', hs, hr.trans hr'⟩
      · exact ⟨vals, ids, by simp [hlt], Rearranged.refl _ _ _⟩

theorem downInv_step {α : Type} [LinearOrder α] {n i c : Nat} {l : List α} {x y : α}
    (hinv : DownInv n i l) (hc0 : 0 < c) (hcn : c < n) (hci : (c - 1) / 2 = i)
    (hx : l[i]? = some x) (hy : l[c]? = some y) (hlt : x < y)
    (hmax : ∀ d, 0 < d → d < n → (d - 1) / 2 = i → ∀ a, l[d]? = some a → a ≤ y) :
    DownInv n c ((l.set i y).set c x) := by
  have hget := getElem?_set_set l i c x y hx hy
  have hic : i ≠ c := by omega
  constructor
  · intro j hj0 hjn hjq a b ha hb
    rw [hget] at ha hb
    simp only [hjq, if_false] at hb
    by_cases hjc : j = c
    · subst hjc
      simp only [if_true] at ha
      simp only [hci, if_true] at hb
      cases ha; cases hb
      exact le_of_lt hlt
    · simp only [hjc, if_false] at ha
      by_cases hji : j = i
      · subst hji
        simp only [if_true] at ha
        cases ha
        have e : (j - 1) / 2 ≠ j := by omega
        simp only [e, if_false] at hb
        exact hinv.2 c hj0 hc0 hcn hci _ b hy hb
      · simp only [hji, if_false] at ha
        by_cases hq : (j - 1) / 2 = i
        · simp only [hq, if_true] at hb
          cases hb
          exact hmax j hj0 hjn hq a ha
        · simp only [hq, if_false] at hb
          exact hinv.1 j hj0 hjn hq a b ha hb
  · intro d _ hd0 hdn hdc a b ha hb
    rw [hget] at ha hb
    have e2 : d ≠ c := by omega
    have e3 : d ≠ i := by omega
    rw [hci] at hb
    simp only [hic, if_true, if_false] at hb
    simp only [e2, e3, if_false] at ha
    cases hb
    exact hinv.1 d hd0 hdn (by omega) a _ ha (hdc ▸ hy)

/-- Sift-down restores the heap property. -/
theorem siftDown_heap {α ι : Type} [LinearOrder α] (n : Nat) :
    ∀ (fuel : Nat) (vals : List α) (ids : List ι) (i : Nat) (r : List α × List ι),
      siftDown fuel n vals ids i = some r → DownInv n i vals → HeapParent n r.1 := by
  intro fuel
  induction fuel with
  | zero => intro vals ids i r h; simp [siftDown] at h
  | succ fuel ih =>
    intro vals ids i r h hinv
    unfold siftDown at h
    by_cases hn : n ≤ 2 * i + 1
    · simp only [hn, if_true, Option.some.injEq] at h
      subst h
      intro j hj0 hjn a b ha hb
      exact hinv.1 j hj0 hjn (by omega) a b ha hb
    · simp only [hn, if_false] at h
      split at h
      · cases h
      · rename_i c hc
        obtain ⟨hc1, hc2, hmax⟩ := largerChild_some hc (by omega)
        split at h
        · rename_i x y hx hy
          by_cases hlt : x < y
          · simp only [hlt, if_true] at h
            split at h
            · rename_i vals' ids' hv hd
              rw [swapAt_eq vals _ _ _ _ hx hy] at hv
              cases hv
              exact ih _ _ _ r h (downInv_step hinv (by omega) hc2 (by omega) hx hy hlt
                (fun d hd0 hdn hdi a ha => hmax d hd0 hdn hdi a y ha hy))
            · cases h
          · simp only [hlt, if_false, Option.some.injEq] at h
            subst h
            intro j hj0 hjn a b ha hb
            by_cases hq : (j - 1) / 2 = i
            · rw [hq, hx] at hb
              cases hb
              exact le_trans (hmax j hj0 hjn hq a y ha hy) (le_of_not_lt hlt)
            · exact hinv.1 j hj0 hjn hq a b ha hb
        · cases h

/-! ## The two heap primitives -/

theorem heapParent_iff {α : Type} [LinearOrder α] (n : Nat) (l : List α) :
    IsMaxHeap n l ↔ HeapParent n l := by
  constructor
  · intro h j hj0 hjn a b ha hb
    exact h ((j - 1) / 2) j hjn (by omega) b a hb ha
  · intro h i c hcn hc a b ha hb
    have e : (c - 1) / 2 = i := by omega
    exact h c (by omega) hcn b a hb (e ▸ ha)

theorem take_succ_set {β : Type} (l : List β) (n : Nat) (x : β) (h : n < l.length) :
    (l.set n x).take (n + 1) = l.take n ++ [x] := by
  rw [List.take_succ, List.set_take, List.set_eq_of_length_le (by simp)]
  simp [h]

theorem maxheap_push_spec {α ι : Type} [LinearOrder α] (k : Nat) (vals : List α)
    (ids : List ι) (val : α) (id : ι) (hk : 0 < k) (hv : k ≤ vals.length)
    (hd : k ≤ ids.length) :
    ∃ vals' ids', maxheap_push k vals ids val id = some (vals', ids') ∧
      Rearranged k (vals.set (k - 1) val) (ids.set (k - 1) id) vals' ids' ∧
      (HeapParent (k - 1) vals → HeapParent k vals') := by
  obtain ⟨vals', ids', hs, hr⟩ := siftUp_run k k (vals.set (k - 1) val) (ids.set (k - 1) id)
    (k - 1) (by omega) (by omega) (by simpa using hv) (by simpa using hd)
  have hw1 : writeAt vals (k - 1) val = some (vals.set (k - 1) val) := by
    unfold writeAt; rw [if_pos (by omega)]
  have hw2 : writeAt ids (k - 1) id = some (ids.set (k - 1) id) := by
    unfold writeAt; rw [if_pos (by omega)]
  have hk0 : k ≠ 0 := by omega
  refine ⟨vals', ids', by simp only [maxheap_push, hk0, if_false, hw1, hw2, hs], hr, ?_⟩
  intro hh
  refine siftUp_heap k k _ _ _ _ hs (by omega) ⟨?_, ?_⟩
  · intro j hj0 hjn hj a b ha hb
    rw [List.getElem?_set_ne (by omega)] at ha hb
    exact hh j hj0 (by omega) a b ha hb
  · intro c hi0 hc0 hcn hc
    omega

theorem maxheap_replace_top_spec {α ι : Type} [LinearOrder α] (k : Nat) (vals : List α)
    (ids : List ι) (val : α) (id : ι) (hk : 0 < k) (hv : k ≤ vals.length)
    (hd : k ≤ ids.length) :
    ∃ vals' ids', maxheap_replace_top k vals ids val id = some (vals', ids') ∧
      Rearranged k (vals.set 0 val) (ids.set 0 id) vals' ids' ∧
      (HeapParent k vals → HeapParent k vals') := by
  obtain ⟨vals', ids', hs, hr⟩ := siftDown_run k (k + 1) (vals.set 0 val) (ids.set 0 id)
    0 (by omega) (by omega) (by simpa using hv) (by simpa using hd)
  have hw1 : writeAt vals 0 val = some (vals.set 0 val) := by
    unfold writeAt; rw [if_pos (by omega)]
  have hw2 : writeAt ids 0 id = some (ids.set 0 id) := by
    unfold writeAt; rw [if_pos (by omega)]
  refine ⟨vals', ids', by simp only [maxheap_replace_top, hw1, hw2, hs], hr, ?_⟩
  intro hh
  refine siftDown_heap k (k + 1) _ _ _ _ hs ⟨?_, ?_⟩
  · intro j hj0 hjn hj a b ha hb
    rw [List.getElem?_set_ne (by omega)] at ha hb
    exact hh j hj0 hjn a b ha hb
  · intro c hi0
    omega

theorem toSizeT_eq (x : Int) (h0 : 0 ≤ x) (h1 : x ≤ INT_MAX) : toSizeT x = x.toNat := by
  unfold toSizeT
  unfold INT_MAX at h1
  rw [Int.emod_eq_of_lt h0 (by omega)]

/-! ## The three branches of `collect` -/

/-- Fill phase (`nres < k`): the candidate is written at index `nres`, the
counter is incremented and the first `nres + 1` pairs are rearranged by the
push. -/
theorem collect_fill {α ι : Type} [LinearOrder α] (k : Int) (s : ResultHeap α ι)
    (val : α) (id : ι) (hp : Pre k s) (hlt : s.nres < k) :
    ∃ vals' ids', DefaultCollector.collect k s val id = some ⟨s.nres + 1, vals', ids'⟩ ∧
      Rearranged (s.nres.toNat + 1) (s.bh_val.set s.nres.toNat val)
        (s.bh_ids.set s.nres.toNat id) vals' ids' ∧
      (HeapParent s.nres.toNat s.bh_val → HeapParent (s.nres.toNat + 1) vals') := by
  obtain ⟨h0, hmax, hn0, hnk, hv, hd⟩ := hp
  have hsz : toSizeT (s.nres + 1) = s.nres.toNat + 1 := by
    rw [toSizeT_eq _ (by omega) (by omega)]; omega
  obtain ⟨vals', ids', hs, hr, hh⟩ := maxheap_push_spec (s.nres.toNat + 1) s.bh_val s.bh_ids
    val id (by omega) (by omega) (by omega)
  have hle : s.nres + 1 ≤ INT_MAX := by omega
  refine ⟨vals', ids', ?_, hr, hh⟩
  simp only [DefaultCollector.collect, hlt, if_true, hle, hsz, hs]

/-- Replacement (`nres = k` and `val < bh_val[0]`): the candidate overwrites
the root, the counter is kept and the first `nres` pairs are rearranged by the
replace-top. -/
theorem collect_replace {α ι : Type} [LinearOrder α] (k : Int) (s : ResultHeap α ι)
    (val : α) (id : ι) (hp : Pre k s) (hfull : s.nres = k) (top : α)
    (ht : s.bh_val[0]? = some top) (hlt : val < top) :
    ∃ vals' ids', DefaultCollector.collect k s val id = some ⟨s.nres, vals', ids'⟩ ∧
      Rearranged s.nres.toNat (s.bh_val.set 0 val) (s.bh_ids.set 0 id) vals' ids' ∧
      (HeapParent s.nres.toNat s.bh_val → HeapParent s.nres.toNat vals') := by
  obtain ⟨h0, hmax, hn0, hnk, hv, hd⟩ := hp
  have hsz : toSizeT s.nres = s.nres.toNat := toSizeT_eq _ (by omega) (by omega)
  obtain ⟨vals', ids', hs, hr, hh⟩ := maxheap_replace_top_spec s.nres.toNat s.bh_val s.bh_ids
    val id (by omega) (by omega) (by omega)
  have hnlt : ¬ s.nres < k := by omega
  refine ⟨vals', ids', ?_, hr, hh⟩
  simp only [DefaultCollector.collect, hnlt, if_false, ht, hlt, if_true, hsz, hs]

/-- Discard (`nres ≥ k` and not `val < bh_val[0]`): nothing is written. -/
theorem collect_discard {α ι : Type} [LinearOrder α] (k : Int) (s : ResultHeap α ι)
    (val : α) (id : ι) (hfull : ¬ s.nres < k) (top : α)
    (ht : s.bh_val[0]? = some top) (hnlt : ¬ val < top) :
    DefaultCollector.collect k s val id = some s := by
  simp only [DefaultCollector.collect, hfull, if_false, ht, hnlt]

/-- When the retained set is full the root `bh_val[0]` can be read. -/
theorem Pre.root {α ι : Type} {k : Int} {s : ResultHeap α ι} (hp : Pre k s) :
    ∃ top, s.bh_val[0]? = some top ∧ ∃ tid, s.bh_ids[0]? = some tid := by
  obtain ⟨h0, hmax, hn0, hnk, hv, hd⟩ := hp
  obtain ⟨top, ht⟩ := exists_getElem? s.bh_val 0 (by omega)
  obtain ⟨tid, hi⟩ := exists_getElem? s.bh_ids 0 (by omega)
  exact ⟨top, ht, tid, hi⟩

/-- A call of `collect` on a state that meets the entry conditions returns, and
the state it returns meets them again; the heap property of the retained
distances is kept, and entries at indices `≥` the new `nres` are not changed. -/
theorem collect_step {α ι : Type} [LinearOrder α] (k : Int) (s : ResultHeap α ι)
    (val : α) (id : ι) (hp : Pre k s) :
    ∃ s', DefaultCollector.collect k s val id = some s' ∧ Pre k s' ∧
      (HeapParent s.nres.toNat s.bh_val → HeapParent s'.nres.toNat s'.bh_val) ∧
      (∀ x, s'.nres.toNat ≤ x → s'.bh_val[x]? = s.bh_val[x]? ∧ s'.bh_ids[x]? = s.bh_ids[x]?) ∧
      s'.bh_val.length = s.bh_val.length ∧ s'.bh_ids.length = s.bh_ids.length := by
  have hp' := hp
  obtain ⟨h0, hmax, hn0, hnk, hv, hd⟩ := hp'
  by_cases hlt : s.nres < k
  · obtain ⟨vals', ids', hs, hr, hh⟩ := collect_fill k s val id hp hlt
    have e : (s.nres + 1).toNat = s.nres.toNat + 1 := by omega
    refine ⟨_, hs, ⟨h0, hmax, by simp only; omega, by simp only; omega, ?_, ?_⟩, ?_, ?_,
      by simp only [hr.len_val, List.length_set], by simp only [hr.len_ids, List.length_set]⟩
    · simp only [hr.len_val, List.length_set]; exact hv
    · simp only [hr.len_ids, List.length_set]; exact hd
    · simp only [e]; exact hh
    · intro x hx
      simp only [e] at hx
      simp only [hr.frame_val x hx, hr.frame_ids x hx]
      rw [List.getElem?_set_ne (by omega), List.getElem?_set_ne (by omega)]
      exact ⟨rfl, rfl⟩
  · have hfull : s.nres = k := by omega
    obtain ⟨top, ht, -⟩ := hp.root
    by_cases hvt : val < top
    · obtain ⟨vals', ids', hs, hr, hh⟩ := collect_replace k s val id hp hfull top ht hvt
      refine ⟨_, hs, ⟨h0, hmax, hn0, hnk, ?_, ?_⟩, hh, ?_,
        by simp only [hr.len_val, List.length_set], by simp only [hr.len_ids, List.length_set]⟩
      · simp only [hr.len_val, List.length_set]; exact hv
      · simp only [hr.len_ids, List.length_set]; exact hd
      · intro x hx
        simp only at hx
        simp only [hr.frame_val x hx, hr.frame_ids x hx]
        rw [List.getElem?_set_ne (by omega), List.getElem?_set_ne (by omega)]
        exact ⟨rfl, rfl⟩
    · exact ⟨s, collect_discard k s val id hlt top ht hvt, hp, fun h => h, fun _ _ => ⟨rfl, rfl⟩,
        rfl, rfl⟩

/-! ## The retained pairs -/

theorem pairs_fill {α ι : Type} [LinearOrder α] (k : Int) (s : ResultHeap α ι)
    (val : α) (id : ι) (hp : Pre k s) (hlt : s.nres < k) :
    ∃ s', DefaultCollector.collect k s val id = some s' ∧ s'.nres = s.nres + 1 ∧
      s'.pairs.Perm ((val, id) :: s.pairs) := by
  obtain ⟨vals', ids', hs, hr, -⟩ := collect_fill k s val id hp hlt
  obtain ⟨h0, hmax, hn0, hnk, hv, hd⟩ := hp
  refine ⟨_, hs, rfl, ?_⟩
  have e : (s.nres + 1).toNat = s.nres.toNat + 1 := by omega
  have hperm := hr.perm
  rw [zip_set_set, take_succ_set _ _ _ (by simp only [List.length_zip]; omega)] at hperm
  simp only [ResultHeap.pairs, e]
  exact hperm.trans (List.perm_append_singleton _ _)

theorem pairs_replace {α ι : Type} [LinearOrder α] (k : Int) (s : ResultHeap α ι)
    (val : α) (id : ι) (hp : Pre k s) (hfull : s.nres = k) (top : α) (tid : ι)
    (ht : s.bh_val[0]? = some top) (hi : s.bh_ids[0]? = some tid) (hlt : val < top) :
    ∃ s', DefaultCollector.collect k s val id = some s' ∧ s'.nres = s.nres ∧
      ((top, tid) :: s'.pairs).Perm ((val, id) :: s.pairs) := by
  obtain ⟨vals', ids', hs, hr, -⟩ := collect_replace k s val id hp hfull top ht hlt
  obtain ⟨h0, hmax, hn0, hnk, hv, hd⟩ := hp
  refine ⟨_, hs, rfl, ?_⟩
  have hperm := hr.perm
  rw [zip_set_set, List.set_take] at hperm
  have h0' : (List.take s.nres.toNat (s.bh_val.zip s.bh_ids))[0]? = some (top, tid) := by
    rw [List.getElem?_take_of_lt (by omega)]
    simp [List.getElem?_zip_eq_some, ht, hi]
  simp only [ResultHeap.pairs]
  cases hL : List.take s.nres.toNat (s.bh_val.zip s.bh_ids) with
  | nil => rw [hL] at h0'; simp at h0'
  | cons hd tl =>
    rw [hL] at h0' hperm
    simp only [List.getElem?_cons_zero, Option.some.injEq] at h0'
    subst h0'
    simp only [List.set_cons_zero] at hperm
    exact (hperm.cons _).trans (List.Perm.swap _ _ _)

theorem dists_eq_map_pairs {α ι : Type} (s : ResultHeap α ι)
    (hd : s.nres.toNat ≤ s.bh_ids.length) : s.dists = s.pairs.map Prod.fst := by
  simp only [ResultHeap.dists, ResultHeap.pairs, List.zip_eq_zipWith, List.take_zipWith]
  rw [← List.zip_eq_zipWith, List.map_fst_zip]
  simp only [List.length_take]
  omega

/-- Feeding any sequence of candidates to `collect` from a state that meets the
entry conditions returns, with a state that meets them again. -/
theorem collectAll_pre {α ι : Type} [LinearOrder α] (k : Int) :
    ∀ (cands : List (α × ι)) (s : ResultHeap α ι), Pre k s →
      ∃ s', DefaultCollector.collectAll k s cands = some s' ∧ Pre k s' := by
  intro cands
  induction cands with
  | nil => intro s hp; exact ⟨s, rfl, hp⟩
  | cons c cs ih =>
    intro s hp
    obtain ⟨s₁, h₁, hp₁, -⟩ := collect_step k s c.1 c.2 hp
    obtain ⟨s', h', hp'⟩ := ih s₁ hp₁
    exact ⟨s', by simp only [DefaultCollector.collectAll, h₁, h'], hp'⟩

/-! ## Selection of the smallest distances -/

/-- In a heap the root is `≥` every entry. -/
theorem heap_root_max {α : Type} [LinearOrder α] (n : Nat) (l : List α)
    (hh : HeapParent n l) (top : α) (ht : l[0]? = some top) :
    ∀ j, j < n → ∀ a, l[j]? = some a → a ≤ top := by
  intro j
  induction j using Nat.strong_induction_on with
  | _ j ih =>
    intro hjn a ha
    by_cases hj0 : j = 0
    · subst hj0; rw [ht] at ha; cases ha; exact le_refl _
    · obtain ⟨hj, -⟩ := List.getElem?_eq_some.1 ha
      obtain ⟨b, hb⟩ := exists_getElem? l ((j - 1) / 2) (by omega)
      exact le_trans (hh j (by omega) hjn a b ha hb) (ih ((j - 1) / 2) (by omega) (by omega) b hb)

theorem mem_dists_le_root {α ι : Type} [LinearOrder α] (s : ResultHeap α ι)
    (hh : HeapParent s.nres.toNat s.bh_val) (top : α) (ht : s.bh_val[0]? = some top) :
    ∀ x ∈ s.dists, x ≤ top := by
  intro x hx
  obtain ⟨j, hj⟩ := List.mem_iff_getElem?.1 hx
  simp only [ResultHeap.dists, List.getElem?_take] at hj
  by_cases hjn : j < s.nres.toNat
  · simp only [hjn, if_true] at hj
    exact heap_root_max _ _ hh top ht j hjn x hj
  · simp only [hjn, if_false] at hj
    cases hj

theorem root_mem_dists {α ι : Type} (s : ResultHeap α ι) (h : 0 < s.nres) (top : α)
    (ht : s.bh_val[0]? = some top) : top ∈ s.dists := by
  have h1 : (List.take s.nres.toNat s.bh_val)[0]? = some top := by
    rw [List.getElem?_take_of_lt (by omega)]; exact ht
  exact List.getElem?_mem h1

/-- One call of `collect`, with everything the run needs: the entry conditions
and the heap are kept, the retained distances stay the smallest seen, the
counter advances until it reaches `k`, and no pair is invented. -/
theorem collect_sel {α ι : Type} [LinearOrder α] (k : Int) (s : ResultHeap α ι)
    (val : α) (id : ι) (M : Multiset α) (hp : Pre k s)
    (hh : HeapParent s.nres.toNat s.bh_val) (hsel : Sel k s M) :
    ∃ s', DefaultCollector.collect k s val id = some s' ∧ Pre k s' ∧
      HeapParent s'.nres.toNat s'.bh_val ∧ Sel k s' (val ::ₘ M) ∧
      s'.nres = min k (s.nres + 1) ∧
      (s'.pairs : Multiset (α × ι)) ≤ (val, id) ::ₘ (s.pairs : Multiset (α × ι)) := by
  obtain ⟨s', hs, hp', hh', -⟩ := collect_step k s val id hp
  refine ⟨s', hs, hp', hh' hh, ?_⟩
  obtain ⟨D, hM, hD, hD0⟩ := hsel
  have hp0 := hp
  obtain ⟨h0, hmax, hn0, hnk, hv, hd⟩ := hp0
  have hd' : s'.dists = s'.pairs.map Prod.fst :=
    dists_eq_map_pairs s' (by have := hp'.2.2.2.1; have := hp'.2.2.2.2.2; omega)
  have hd0 : s.dists = s.pairs.map Prod.fst := dists_eq_map_pairs s (by omega)
  by_cases hlt : s.nres < k
  · obtain ⟨s₁, hs₁, hn₁, hperm⟩ := pairs_fill k s val id hp hlt
    rw [hs] at hs₁; cases hs₁
    have hdp : s'.dists.Perm (val :: s.dists) := by
      rw [hd', hd0]; exact hperm.map Prod.fst
    refine ⟨⟨0, ?_, ?_, fun _ => rfl⟩, ?_, ?_⟩
    · rw [hM, hD0 hlt, add_zero, add_zero, Multiset.cons_coe]
      exact (Multiset.coe_eq_coe.2 hdp).symm
    · intro x _ y hy; simp at hy
    · rw [hn₁]; omega
    · rw [Multiset.cons_coe]
      exact le_of_eq (Multiset.coe_eq_coe.2 hperm)
  · have hfull : s.nres = k := by omega
    obtain ⟨top, ht, tid, hi⟩ := hp.root
    have hroot := mem_dists_le_root s hh top ht
    have htop := root_mem_dists s (by omega) top ht
    by_cases hvt : val < top
    · obtain ⟨s₁, hs₁, hn₁, hperm⟩ := pairs_replace k s val id hp hfull top tid ht hi hvt
      rw [hs] at hs₁; cases hs₁
      have hdp : (top :: s'.dists).Perm (val :: s.dists) := by
        rw [hd', hd0]; exact hperm.map Prod.fst
      have hmem : ∀ x ∈ s'.dists, x ≤ top := by
        intro x hx
        have : x ∈ val :: s.dists := hdp.subset (List.mem_cons_of_mem _ hx)
        rcases List.mem_cons.1 this with h | h
        · rw [h]; exact le_of_lt hvt
        · exact hroot x h
      refine ⟨⟨top ::ₘ D, ?_, ?_, ?_⟩, ?_, ?_⟩
      · rw [hM, Multiset.add_cons, ← Multiset.cons_add, ← Multiset.cons_add,
          Multiset.cons_coe, Multiset.cons_coe, Multiset.coe_eq_coe.2 hdp]
      · intro x hx y hy
        rcases Multiset.mem_cons.1 hy with h | h
        · rw [h]; exact hmem x hx
        · exact le_trans (hmem x hx) (hD top htop y h)
      · intro h; omega
      · rw [hn₁]; omega
      · have e : (top, tid) ::ₘ (s'.pairs : Multiset (α × ι)) =
            (val, id) ::ₘ (s.pairs : Multiset (α × ι)) := by
          rw [Multiset.cons_coe, Multiset.cons_coe]; exact Multiset.coe_eq_coe.2 hperm
        rw [← e]
        exact Multiset.le_cons_self _ _
    · have hs₁ := collect_discard k s val id hlt top ht hvt
      rw [hs] at hs₁; cases hs₁
      refine ⟨⟨val ::ₘ D, ?_, ?_, ?_⟩, ?_, ?_⟩
      · rw [hM, Multiset.add_cons]
      · intro x hx y hy
        rcases Multiset.mem_cons.1 hy with h | h
        · rw [h]; exact le_trans (hroot x hx) (le_of_not_lt hvt)
        · exact hD x hx y h
      · intro h; omega
      · omega
      · exact Multiset.le_cons_self _ _

/-- The run of `collect` over a candidate sequence, from any state that meets
the entry conditions and holds a heap. -/
theorem collectAll_sel {α ι : Type} [LinearOrder α] (k : Int) :
    ∀ (cands : List (α × ι)) (s : ResultHeap α ι) (M : Multiset α), Pre k s →
      HeapParent s.nres.toNat s.bh_val → Sel k s M →
      ∃ s', DefaultCollector.collectAll k s cands = some s' ∧ Pre k s' ∧
        HeapParent s'.nres.toNat s'.bh_val ∧
        Sel k s' (M + ((cands.map Prod.fst : List α) : Multiset α)) ∧
        s'.nres = min k (s.nres + cands.length) ∧
        (s'.pairs : Multiset (α × ι)) ≤ (s.pairs : Multiset (α × ι)) + (cands : Multiset (α × ι)) := by
  intro cands
  induction cands with
  | nil =>
    intro s M hp hh hsel
    refine ⟨s, rfl, hp, hh, by simpa using hsel, ?_, by simp⟩
    have := hp.2.2.2.1
    simp only [List.length_nil, Nat.cast_zero, add_zero]
    omega
  | cons c cs ih =>
    intro s M hp hh hsel
    obtain ⟨s₁, h₁, hp₁, hh₁, hsel₁, hn₁, hle₁⟩ := collect_sel k s c.1 c.2 M hp hh hsel
    obtain ⟨s', h', hp', hh', hsel', hn', hle'⟩ := ih s₁ (c.1 ::ₘ M) hp₁ hh₁ hsel₁
    refine ⟨s', by simp only [DefaultCollector.collectAll, h₁, h'], hp', hh', ?_, ?_, ?_⟩
    · have e : M + (((c :: cs).map Prod.fst : List α) : Multiset α) =
          c.1 ::ₘ M + ((cs.map Prod.fst : List α) : Multiset α) := by
        rw [List.map_cons, ← Multiset.cons_coe, Multiset.add_cons, Multiset.cons_add]
      rw [e]; exact hsel'
    · rw [hn', hn₁]
      simp only [List.length_cons, Nat.cast_add, Nat.cast_one]
      omega
    · refine le_trans hle' ?_
      have e : (s.pairs : Multiset (α × ι)) + ((c :: cs : List (α × ι)) : Multiset (α × ι)) =
          (c ::ₘ (s.pairs : Multiset (α × ι))) + (cs : Multiset (α × ι)) := by
        rw [← Multiset.cons_coe, Multiset.add_cons, Multiset.cons_add]
      rw [e]
      exact add_le_add_right hle₁ _

/-- A sub-multiset `R` of the distances `L` none of whose members exceeds a
member of the rest is the multiset of the `R.length` smallest entries of `L`. -/
theorem kSmallest_char {α : Type} [LinearOrder α] (L R : List α) (D : Multiset α)
    (hM : (L : Multiset α) = (R : Multiset α) + D) (hD : ∀ x ∈ R, ∀ y ∈ D, x ≤ y) :
    (R : Multiset α) = (kSmallest R.length L : List α) := by
  have hsA : (R.insertionSort (fun a b => a ≤ b)).Sorted (fun a b => a ≤ b) :=
    List.sorted_insertionSort _ R
  have hpA : (R.insertionSort (fun a b => a ≤ b)).Perm R := List.perm_insertionSort _ R
  have hsB : (D.sort (fun a b => a ≤ b)).Sorted (fun a b => a ≤ b) := Multiset.sort_sorted _ D
  have hsL : (L.insertionSort (fun a b => a ≤ b)).Sorted (fun a b => a ≤ b) :=
    List.sorted_insertionSort _ L
  have hpL : (L.insertionSort (fun a b => a ≤ b)).Perm L := List.perm_insertionSort _ L
  have hsAB : (R.insertionSort (fun a b => a ≤ b) ++ D.sort (fun a b => a ≤ b)).Sorted
      (fun a b => a ≤ b) := by
    refine List.pairwise_append.2 ⟨hsA, hsB, ?_⟩
    intro a ha b hb
    exact hD a (hpA.subset ha) b ((Multiset.mem_sort _).1 hb)
  have hpAB : (R.insertionSort (fun a b => a ≤ b) ++ D.sort (fun a b => a ≤ b)).Perm
      (L.insertionSort (fun a b => a ≤ b)) := by
    refine List.Perm.trans ?_ hpL.symm
    apply Multiset.coe_eq_coe.1
    rw [hM, ← Multiset.coe_add, Multiset.sort_eq, Multiset.coe_eq_coe.2 hpA]
  have heq := List.eq_of_perm_of_sorted hpAB hsAB hsL
  unfold kSmallest
  rw [← heq, ← List.length_insertionSort (fun a b => a ≤ b) R, List.take_left']
  · exact (Multiset.coe_eq_coe.2 hpA).symm
  · rfl

/-! ## Single calls of `collect` -/

/-- C2 (bounded size): on a state that meets the entry conditions (`k > 0` an
`int`, `0 ≤ nres ≤ k`, buffers of at least `k` entries) `collect` returns with
`0 ≤ nres ≤ k`; hence the bound holds after every call of a sequence of calls,
that is, after every initial segment of the candidate sequence. -/
theorem collect_nres_bounded {α ι : Type} [LinearOrder α] (k : Int) (s : ResultHeap α ι)
    (val : α) (id : ι) (cands : List (α × ι)) (hp : Pre k s) :
    (∃ s', DefaultCollector.collect k s val id = some s' ∧ 0 ≤ s'.nres ∧ s'.nres ≤ k) ∧
    (∀ m, ∃ s', DefaultCollector.collectAll k s (cands.take m) = some s' ∧
      0 ≤ s'.nres ∧ s'.nres ≤ k) := by
  constructor
  · obtain ⟨s', h, hp', -⟩ := collect_step k s val id hp
    exact ⟨s', h, hp'.2.2.1, hp'.2.2.2.1⟩
  · intro m
    obtain ⟨s', h, hp'⟩ := collectAll_pre k (cands.take m) s hp
    exact ⟨s', h, hp'.2.2.1, hp'.2.2.2.1⟩

/-- C3 (heap property preserved), for distances that are totally ordered (no
NaN): if on entry the first `nres` entries of `bh_val` form a binary max-heap,
then `collect` returns and the first `nres` (updated) entries of `bh_val` form
a binary max-heap again, in each of the three branches. -/
theorem collect_heap_preserved {α ι : Type} [LinearOrder α] (k : Int) (s : ResultHeap α ι)
    (val : α) (id : ι) (hp : Pre k s) (hh : IsMaxHeap s.nres.toNat s.bh_val) :
    ∃ s', DefaultCollector.collect k s val id = some s' ∧
      IsMaxHeap s'.nres.toNat s'.bh_val := by
  obtain ⟨s', h, -, hh', -⟩ := collect_step k s val id hp
  exact ⟨s', h, (heapParent_iff _ _).2 (hh' ((heapParent_iff _ _).1 hh))⟩

/-- C4 (discard is a no-op): when `nres = k > 0` and the candidate distance is
not strictly smaller than the root `bh_val[0]` (equal distances included),
`collect` returns the very same `nres`, `bh_val` and `bh_ids`. Example: with
`k = 2`, after `(4, 10)` and `(4, 11)` the candidate `(4, 12)` is dropped. -/
theorem collect_discard_noop {α ι : Type} [LinearOrder α] (k : Int) (s : ResultHeap α ι)
    (val : α) (id : ι) (top : α) (hfull : s.nres = k)
    (ht : s.bh_val[0]? = some top) (hnlt : ¬ val < top) :
    DefaultCollector.collect k s val id = some s ∧
    (DefaultCollector.collectAll (2 : Int) ⟨0, [0, 0], [0, 0]⟩
        [((4 : Int), (10 : Int)), (4, 11)] = some ⟨2, [4, 4], [10, 11]⟩ ∧
      DefaultCollector.collect (2 : Int) ⟨2, [(4 : Int), 4], [(10 : Int), 11]⟩ 4 12
        = some ⟨2, [4, 4], [10, 11]⟩) := by
  refine ⟨collect_discard k s val id (by omega) top ht hnlt, ?_⟩
  exact ⟨by decide, by decide⟩

/-- C5 (finalize is a no-op): `post_process` returns the identifier array it
was given, entry for entry, for every `nres`; the retained set after the call
is the retained set before it (the distance array is not an argument of
`post_process`). -/
theorem post_process_noop {α ι : Type} (nres : Int) (bh_ids : List ι) (s : ResultHeap α ι) :
    DefaultCollector.post_process nres bh_ids = bh_ids ∧ DefaultCollector.finish s = s :=
  ⟨rfl, rfl⟩

/-- C6 (fill phase always admits): when `0 ≤ nres < k`, whatever the candidate
distance, `collect` increases `nres` by exactly one and the retained pairs are
the old retained pairs plus the candidate pair (as multisets). -/
theorem collect_fill_phase {α ι : Type} [LinearOrder α] (k : Int) (s : ResultHeap α ι)
    (val : α) (id : ι) (hp : Pre k s) (hlt : s.nres < k) :
    ∃ s', DefaultCollector.collect k s val id = some s' ∧ s'.nres = s.nres + 1 ∧
      (s'.pairs : Multiset (α × ι)) = (val, id) ::ₘ (s.pairs : Multiset (α × ι)) := by
  obtain ⟨s', h, hn, hperm⟩ := pairs_fill k s val id hp hlt
  exact ⟨s', h, hn, by rw [Multiset.cons_coe]; exact Multiset.coe_eq_coe.2 hperm⟩

/-- C7 (replacement evicts the worst): when `nres = k > 0` and the candidate
distance is strictly smaller than the root `bh_val[0]`, `collect` leaves `nres`
unchanged and the retained pairs are the old ones with the old root pair
`(bh_val[0], bh_ids[0])` removed and the candidate pair added (as multisets).
The heap hypothesis of the claim is not needed for this. -/
theorem collect_replace_evicts_root {α ι : Type} [LinearOrder α] [DecidableEq ι] (k : Int)
    (s : ResultHeap α ι) (val : α) (id : ι) (top : α) (tid : ι) (hp : Pre k s)
    (hfull : s.nres = k) (ht : s.bh_val[0]? = some top) (hi : s.bh_ids[0]? = some tid)
    (hlt : val < top) :
    ∃ s', DefaultCollector.collect k s val id = some s' ∧ s'.nres = s.nres ∧
      (s'.pairs : Multiset (α × ι)) =
        (val, id) ::ₘ (s.pairs : Multiset (α × ι)).erase (top, tid) := by
  obtain ⟨s', h, hn, hperm⟩ := pairs_replace k s val id hp hfull top tid ht hi hlt
  refine ⟨s', h, hn, ?_⟩
  have e : (top, tid) ::ₘ (s'.pairs : Multiset (α × ι)) = (val, id) ::ₘ (s.pairs : Multiset (α × ι)) := by
    rw [Multiset.cons_coe, Multiset.cons_coe]; exact Multiset.coe_eq_coe.2 hperm
  have hne : (val, id) ≠ (top, tid) := by
    intro hc
    exact absurd (congrArg Prod.fst hc) (ne_of_lt hlt)
  calc (s'.pairs : Multiset (α × ι))
      = ((top, tid) ::ₘ (s'.pairs : Multiset (α × ι))).erase (top, tid) :=
        (Multiset.erase_cons_head _ _).symm
    _ = ((val, id) ::ₘ (s.pairs : Multiset (α × ι))).erase (top, tid) := by rw [e]
    _ = (val, id) ::ₘ (s.pairs : Multiset (α × ι)).erase (top, tid) :=
        Multiset.erase_cons_tail _ hne

/-- C9 (bounds safety): under the entry conditions every checked read and
write of `collect` and of the heap primitives it calls succeeds and `++nres`
stays in the range of `int`, so `collect` never takes the error branch; this
is still so when both buffers are cut down to exactly `k` entries, hence every
index used lies in `[0, k)`. -/
theorem collect_in_bounds {α ι : Type} [LinearOrder α] (k : Int) (s : ResultHeap α ι)
    (val : α) (id : ι) (hp : Pre k s) :
    (DefaultCollector.collect k s val id).isSome = true ∧
    (DefaultCollector.collect k
      ⟨s.nres, s.bh_val.take k.toNat, s.bh_ids.take k.toNat⟩ val id).isSome = true := by
  constructor
  · obtain ⟨s', h, -⟩ := collect_step k s val id hp
    simp [h]
  · have hp' : Pre k (⟨s.nres, s.bh_val.take k.toNat, s.bh_ids.take k.toNat⟩ : ResultHeap α ι) := by
      obtain ⟨h0, hmax, hn0, hnk, hv, hd⟩ := hp
      refine ⟨h0, hmax, hn0, hnk, ?_, ?_⟩ <;> simp only [List.length_take] <;> omega
    obtain ⟨s', h, -⟩ := collect_step k _ val id hp'
    simp [h]

/-- C10 (slots outside the retained prefix are untouched): under the entry
conditions `collect` returns, and `bh_val[i]`, `bh_ids[i]` are unchanged for
every index `i ≥` the updated `nres`; the buffers keep their lengths. -/
theorem collect_frame {α ι : Type} [LinearOrder α] (k : Int) (s : ResultHeap α ι)
    (val : α) (id : ι) (hp : Pre k s) :
    ∃ s', DefaultCollector.collect k s val id = some s' ∧
      s'.bh_val.length = s.bh_val.length ∧ s'.bh_ids.length = s.bh_ids.length ∧
      ∀ i, s'.nres.toNat ≤ i → s'.bh_val[i]? = s.bh_val[i]? ∧ s'.bh_ids[i]? = s.bh_ids[i]? := by
  obtain ⟨s', h, -, -, hf, hl1, hl2⟩ := collect_step k s val id hp
  exact ⟨s', h, hl1, hl2, hf⟩

/-! ## Runs of `collect` from the empty retained set -/

/-- C1 (k-selection): for a capacity `k > 0` and a sequence of `N ≥ k`
candidates, calling `collect` on each pair in order from the empty retained
set (`nres = 0`) returns with `nres = k`, and the multiset of the first `nres`
retained distances is the multiset of the `k` smallest distances of the `N`
inputs (distances are linearly ordered). -/
theorem collect_kSelection {α ι : Type} [LinearOrder α] (k : Int) (s : ResultHeap α ι)
    (cands : List (α × ι)) (hp : Pre k s) (h0 : s.nres = 0)
    (hN : k ≤ (cands.length : Int)) :
    ∃ s', DefaultCollector.collectAll k s cands = some s' ∧ s'.nres = k ∧
      (s'.dists : Multiset α) = (kSmallest k.toNat (cands.map Prod.fst) : List α) := by
  have hh : HeapParent s.nres.toNat s.bh_val := by
    intro j hj0 hjn
    rw [h0] at hjn
    simp at hjn
  have hd : s.dists = [] := by simp [ResultHeap.dists, h0]
  have hsel : Sel k s 0 := ⟨0, by simp [hd], by simp, fun _ => rfl⟩
  obtain ⟨s', hs, hp', -, ⟨D, hM, hD, -⟩, hn, -⟩ := collectAll_sel k cands s 0 hp hh hsel
  have hk : s'.nres = k := by rw [hn, h0]; omega
  refine ⟨s', hs, hk, ?_⟩
  rw [zero_add] at hM
  have hlen : s'.dists.length = k.toNat := by
    have := hp'.2.2.2.2.1
    simp only [ResultHeap.dists, List.length_take, hk]
    omega
  rw [← hlen]
  exact kSmallest_char _ _ D hM hD

/-- C8 (ids stay matched to their distances): for every run of `collect` from
the empty retained set, the retained pairs `(bh_val[i], bh_ids[i])`, `i < nres`,
form a sub-multiset of the input pairs. Scenario: `k = 3` and the candidates
`(5,1), (2,2), (8,3), (1,4), (3,5)` end with `nres = 3`, retained pairs
`(3,5), (2,2), (1,4)`, root distance `3` and root identifier `5`. -/
theorem collect_pairs_from_input {α ι : Type} [LinearOrder α] (k : Int) (s : ResultHeap α ι)
    (cands : List (α × ι)) (hp : Pre k s) (h0 : s.nres = 0) :
    (∃ s', DefaultCollector.collectAll k s cands = some s' ∧
      (s'.pairs : Multiset (α × ι)) ≤ (cands : Multiset (α × ι))) ∧
    DefaultCollector.collectAll (3 : Int) ⟨0, [0, 0, 0], [0, 0, 0]⟩
      [((5 : Int), (1 : Int)), (2, 2), (8, 3), (1, 4), (3, 5)]
      = some ⟨3, [3, 2, 1], [5, 2, 4]⟩ := by
  refine ⟨?_, by decide⟩
  have hh : HeapParent s.nres.toNat s.bh_val := by
    intro j hj0 hjn
    rw [h0] at hjn
    simp at hjn
  have hd : s.dists = [] := by simp [ResultHeap.dists, h0]
  have hpr : s.pairs = [] := by simp [ResultHeap.pairs, h0]
  have hsel : Sel k s 0 := ⟨0, by simp [hd], by simp, fun _ => rfl⟩
  obtain ⟨s', hs, -, -, -, -, hle⟩ := collectAll_sel k cands s 0 hp hh hsel
  refine ⟨s', hs, ?_⟩
  rw [hpr] at hle
  simpa using hle

/-! ## Retained count, admission threshold and scan order -/

theorem pairs_length {α ι : Type} (k : Int) (s : ResultHeap α ι) (hp : Pre k s) :
    s.pairs.length = s.nres.toNat := by
  obtain ⟨h0, hmax, hn0, hnk, hv, hd⟩ := hp
  simp only [ResultHeap.pairs, List.length_take, List.length_zip]
  omega

theorem dists_length {α ι : Type} (k : Int) (s : ResultHeap α ι) (hp : Pre k s) :
    s.dists.length = s.nres.toNat := by
  obtain ⟨h0, hmax, hn0, hnk, hv, hd⟩ := hp
  simp only [ResultHeap.dists, List.length_take]
  omega

/-- A call of `collect` on a full retained set leaves the counter at `k`. -/
theorem collect_nres_full {α ι : Type} [LinearOrder α] (k : Int) (s : ResultHeap α ι)
    (val : α) (id : ι) (hp : Pre k s) (hfull : s.nres = k) :
    ∃ s', DefaultCollector.collect k s val id = some s' ∧ Pre k s' ∧ s'.nres = k := by
  obtain ⟨s', hs, hp', -⟩ := collect_step k s val id hp
  refine ⟨s', hs, hp', ?_⟩
  obtain ⟨top, ht, -⟩ := hp.root
  by_cases hvt : val < top
  · obtain ⟨vals', ids', hs₁, -⟩ := collect_replace k s val id hp hfull top ht hvt
    rw [hs] at hs₁; cases hs₁
    exact hfull
  · have hs₁ := collect_discard k s val id (by omega) top ht hvt
    rw [hs] at hs₁; cases hs₁
    exact hfull

/-- A run of `collect` from a full retained set leaves the counter at `k`. -/
theorem collectAll_nres_full {α ι : Type} [LinearOrder α] (k : Int) :
    ∀ (cands : List (α × ι)) (s : ResultHeap α ι), Pre k s → s.nres = k →
      ∃ s', DefaultCollector.collectAll k s cands = some s' ∧ s'.nres = k := by
  intro cands
  induction cands with
  | nil => intro s _ hfull; exact ⟨s, rfl, hfull⟩
  | cons c cs ih =>
    intro s hp hfull
    obtain ⟨s₁, h₁, hp₁, hn₁⟩ := collect_nres_full k s c.1 c.2 hp hfull
    obtain ⟨s', h', hn'⟩ := ih s₁ hp₁ hn₁
    exact ⟨s', by simp only [DefaultCollector.collectAll, h₁, h'], hn'⟩

/-- The run from the empty retained set: it returns, the counter is
`min k N`, the retained pairs come from the input and the retained distances
are the `nres` smallest input distances. -/
theorem collectAll_from_empty {α ι : Type} [LinearOrder α] (k : Int) (s : ResultHeap α ι)
    (cands : List (α × ι)) (hp : Pre k s) (h0 : s.nres = 0) :
    ∃ s', DefaultCollector.collectAll k s cands = some s' ∧ Pre k s' ∧
      HeapParent s'.nres.toNat s'.bh_val ∧
      s'.nres = min k (cands.length : Int) ∧
      (s'.pairs : Multiset (α × ι)) ≤ (cands : Multiset (α × ι)) ∧
      (s'.dists : Multiset α) = (kSmallest s'.nres.toNat (cands.map Prod.fst) : List α) := by
  have hh : HeapParent s.nres.toNat s.bh_val := by
    intro j hj0 hjn
    rw [h0] at hjn
    simp at hjn
  have hd : s.dists = [] := by simp [ResultHeap.dists, h0]
  have hpr : s.pairs = [] := by simp [ResultHeap.pairs, h0]
  have hsel : Sel k s 0 := ⟨0, by simp [hd], by simp, fun _ => rfl⟩
  obtain ⟨s', hs, hp', hh', ⟨D, hM, hD, -⟩, hn, hle⟩ := collectAll_sel k cands s 0 hp hh hsel
  refine ⟨s', hs, hp', hh', by rw [hn, h0, zero_add], ?_, ?_⟩
  · rw [hpr] at hle
    simpa using hle
  · rw [zero_add] at hM
    rw [← dists_length k s' hp']
    exact kSmallest_char _ _ D hM hD

/-- The `n` smallest entries do not depend on the order of the list. -/
theorem kSmallest_perm {α : Type} [LinearOrder α] (n : Nat) (L₁ L₂ : List α)
    (h : L₁.Perm L₂) : kSmallest n L₁ = kSmallest n L₂ := by
  unfold kSmallest
  have hp : (L₁.insertionSort (fun a b => a ≤ b)).Perm (L₂.insertionSort (fun a b => a ≤ b)) :=
    ((List.perm_insertionSort _ L₁).trans h).trans (List.perm_insertionSort _ L₂).symm
  rw [List.eq_of_perm_of_sorted hp (List.sorted_insertionSort _ L₁)
    (List.sorted_insertionSort _ L₂)]

/-- A call of `collect` on a full heap: the new root is not larger than the
old one, and the heap property is kept. -/
theorem collect_root {α ι : Type} [LinearOrder α] (k : Int) (s : ResultHeap α ι)
    (val : α) (id : ι) (top : α) (hp : Pre k s) (hfull : s.nres = k)
    (hh : HeapParent s.nres.toNat s.bh_val) (ht : s.bh_val[0]? = some top) :
    ∃ s' top', DefaultCollector.collect k s val id = some s' ∧ Pre k s' ∧ s'.nres = k ∧
      HeapParent s'.nres.toNat s'.bh_val ∧ s'.bh_val[0]? = some top' ∧ top' ≤ top := by
  obtain ⟨s', hs, hp', hh', -⟩ := collect_step k s val id hp
  have hn' : s'.nres = k := by
    obtain ⟨s₁, hs₁, -, hn₁⟩ := collect_nres_full k s val id hp hfull
    rw [hs] at hs₁; cases hs₁
    exact hn₁
  obtain ⟨top', ht', -⟩ := hp'.root
  refine ⟨s', top', hs, hp', hn', hh' hh, ht', ?_⟩
  have hk0 : 0 < k := hp.1
  obtain ⟨tid, hi⟩ : ∃ tid, s.bh_ids[0]? = some tid := by
    obtain ⟨_, _, tid, hi⟩ := hp.root
    exact ⟨tid, hi⟩
  by_cases hvt : val < top
  · obtain ⟨s₁, hs₁, -, hperm⟩ := pairs_replace k s val id hp hfull top tid ht hi hvt
    rw [hs] at hs₁; cases hs₁
    have hd' : s'.dists = s'.pairs.map Prod.fst :=
      dists_eq_map_pairs s' (by have := hp'.2.2.2.1; have := hp'.2.2.2.2.2; omega)
    have hd0 : s.dists = s.pairs.map Prod.fst :=
      dists_eq_map_pairs s (by have := hp.2.2.2.1; have := hp.2.2.2.2.2; omega)
    have hdp : (top :: s'.dists).Perm (val :: s.dists) := by
      rw [hd', hd0]; exact hperm.map Prod.fst
    have hmem : top' ∈ val :: s.dists :=
      hdp.subset (List.mem_cons_of_mem _ (root_mem_dists s' (by omega) top' ht'))
    rcases List.mem_cons.1 hmem with h | h
    · rw [h]; exact le_of_lt hvt
    · exact mem_dists_le_root s hh top ht top' h
  · have hs₁ := collect_discard k s val id (by omega) top ht hvt
    rw [hs] at hs₁; cases hs₁
    rw [ht] at ht'; cases ht'
    exact le_refl _

/-- C11 (retained count is `min(N, K)`): for a run of `collect` over `N`
candidates from `nres = 0` the final `nres` is `min(N, k)`, and so it is after
every initial segment of the run; when `N < k` the retained pairs are exactly
the input pairs (as multisets); and from a state with `nres = k` any further
run of `collect` returns with `nres = k` again. -/
theorem collect_count_min {α ι : Type} [LinearOrder α] (k : Int) (s : ResultHeap α ι)
    (cands : List (α × ι)) (hp : Pre k s) (h0 : s.nres = 0) :
    (∃ s', DefaultCollector.collectAll k s cands = some s' ∧
      s'.nres = min (cands.length : Int) k ∧
      ((cands.length : Int) < k → (s'.pairs : Multiset (α × ι)) = (cands : Multiset (α × ι)))) ∧
    (∀ m, ∃ s', DefaultCollector.collectAll k s (cands.take m) = some s' ∧
      s'.nres = min ((cands.take m).length : Int) k) ∧
    (∀ (t : ResultHeap α ι) (more : List (α × ι)), Pre k t → t.nres = k →
      ∃ t', DefaultCollector.collectAll k t more = some t' ∧ t'.nres = k) := by
  refine ⟨?_, ?_, ?_⟩
  · obtain ⟨s', hs, hp', -, hn, hle, -⟩ := collectAll_from_empty k s cands hp h0
    refine ⟨s', hs, by rw [hn, min_comm], ?_⟩
    intro hlt
    refine Multiset.eq_of_le_of_card_le hle ?_
    have hlen := pairs_length k s' hp'
    simp only [Multiset.coe_card, hlen, hn]
    omega
  · intro m
    obtain ⟨s', hs, -, -, hn, -⟩ := collectAll_from_empty k s (cands.take m) hp h0
    exact ⟨s', hs, by rw [hn, min_comm]⟩
  · intro t more hpt hfull
    exact collectAll_nres_full k more t hpt hfull

/-- C12 (admission threshold never loosens), for distances that are totally
ordered (no NaN): on a full retained set (`nres = k > 0`) whose distances form
a max-heap, `collect` returns with a root distance `bh_val[0]` that is `≤` the
root distance before the call, and after the call `bh_val[0]` is `≥` every
retained distance. -/
theorem collect_root_antitone {α ι : Type} [LinearOrder α] (k : Int) (s : ResultHeap α ι)
    (val : α) (id : ι) (top : α) (hp : Pre k s) (hfull : s.nres = k)
    (hh : IsMaxHeap s.nres.toNat s.bh_val) (ht : s.bh_val[0]? = some top) :
    ∃ s' top', DefaultCollector.collect k s val id = some s' ∧
      s'.bh_val[0]? = some top' ∧ top' ≤ top ∧ ∀ x ∈ s'.dists, x ≤ top' := by
  obtain ⟨s', top', hs, -, -, hh', ht', hle⟩ :=
    collect_root k s val id top hp hfull ((heapParent_iff _ _).1 hh) ht
  exact ⟨s', top', hs, ht', hle, mem_dists_le_root s' hh' top' ht'⟩

/-- C13 (scan-order independence of the retained distances), for distances that
are totally ordered (no NaN): for two candidate sequences that are
permutations of each other, the runs of `collect` from the empty retained set
(whatever the initial buffer contents) both return, with the same final `nres`
and the same multiset of retained distances. -/
theorem collect_order_independent {α ι : Type} [LinearOrder α] (k : Int)
    (s₁ s₂ : ResultHeap α ι) (cands₁ cands₂ : List (α × ι))
    (hp₁ : Pre k s₁) (hp₂ : Pre k s₂) (h₁ : s₁.nres = 0) (h₂ : s₂.nres = 0)
    (hperm : cands₁.Perm cands₂) :
    ∃ t₁ t₂, DefaultCollector.collectAll k s₁ cands₁ = some t₁ ∧
      DefaultCollector.collectAll k s₂ cands₂ = some t₂ ∧ t₁.nres = t₂.nres ∧
      (t₁.dists : Multiset α) = (t₂.dists : Multiset α) := by
  obtain ⟨t₁, hs₁, -, -, hn₁, -, hd₁⟩ := collectAll_from_empty k s₁ cands₁ hp₁ h₁
  obtain ⟨t₂, hs₂, -, -, hn₂, -, hd₂⟩ := collectAll_from_empty k s₂ cands₂ hp₂ h₂
  have hn : t₁.nres = t₂.nres := by rw [hn₁, hn₂, hperm.length_eq]
  refine ⟨t₁, t₂, hs₁, hs₂, hn, ?_⟩
  rw [hd₁, hd₂, hn, kSmallest_perm _ _ _ (hperm.map Prod.fst)]

/-! ## Concrete instances -/

/-- Instance of collect_kSelection (C1) on concrete buffers. -/
theorem collect_kSelection_witness :
    Pre (2 : Int) (⟨0, [0, 0], [0, 0]⟩ : ResultHeap Int Int) ∧
    ∃ s', DefaultCollector.collectAll (2 : Int) (⟨0, [0, 0], [0, 0]⟩ : ResultHeap Int Int)
        [(5, 1), (2, 2), (8, 3), (1, 4)] = some s' ∧ s'.nres = 2 ∧
      (s'.dists : Multiset Int) =
        (kSmallest (2 : Int).toNat
          (([(5, 1), (2, 2), (8, 3), (1, 4)] : List (Int × Int)).map Prod.fst) : List Int) :=
  ⟨by decide, collect_kSelection 2 ⟨0, [0, 0], [0, 0]⟩ [(5, 1), (2, 2), (8, 3), (1, 4)]
    (by decide) rfl (by decide)⟩

/-- Instance of collect_nres_bounded (C2) on concrete buffers. -/
theorem collect_nres_bounded_witness :
    Pre (3 : Int) (⟨1, [5, 0, 0], [1, 0, 0]⟩ : ResultHeap Int Int) ∧
    ((∃ s', DefaultCollector.collect (3 : Int) (⟨1, [5, 0, 0], [1, 0, 0]⟩ : ResultHeap Int Int)
        2 2 = some s' ∧ 0 ≤ s'.nres ∧ s'.nres ≤ 3) ∧
      (∀ m, ∃ s', DefaultCollector.collectAll (3 : Int)
        (⟨1, [5, 0, 0], [1, 0, 0]⟩ : ResultHeap Int Int)
        (([(8, 3), (1, 4), (3, 5)] : List (Int × Int)).take m) = some s' ∧
        0 ≤ s'.nres ∧ s'.nres ≤ 3)) :=
  ⟨by decide, collect_nres_bounded 3 ⟨1, [5, 0, 0], [1, 0, 0]⟩ 2 2 [(8, 3), (1, 4), (3, 5)]
    (by decide)⟩

/-- Instance of collect_heap_preserved (C3) on concrete buffers. -/
theorem collect_heap_preserved_witness :
    ∃ s', DefaultCollector.collect (3 : Int) (⟨3, [8, 2, 5], [3, 2, 1]⟩ : ResultHeap Int Int)
      1 4 = some s' ∧ IsMaxHeap s'.nres.toNat s'.bh_val :=
  collect_heap_preserved 3 ⟨3, [8, 2, 5], [3, 2, 1]⟩ 1 4 (by decide) (by
    intro i c hc hci a b ha hb
    have hc3 : c < 3 := hc
    have hi : i = 0 := by omega
    subst hi
    have hc' : c = 1 ∨ c = 2 := by omega
    rcases hc' with rfl | rfl <;> simp at ha hb <;> omega)

/-- Instance of collect_discard_noop (C4) on concrete buffers. -/
theorem collect_discard_noop_witness :
    DefaultCollector.collect (2 : Int) (⟨2, [4, 4], [10, 11]⟩ : ResultHeap Int Int) 4 12
      = some ⟨2, [4, 4], [10, 11]⟩ :=
  (collect_discard_noop 2 ⟨2, [4, 4], [10, 11]⟩ 4 12 4 rfl rfl (by decide)).1

/-- Instance of collect_fill_phase (C6) on concrete buffers. -/
theorem collect_fill_phase_witness :
    ∃ s', DefaultCollector.collect (3 : Int) (⟨2, [5, 2, 0], [1, 2, 0]⟩ : ResultHeap Int Int)
      8 3 = some s' ∧ s'.nres = 2 + 1 ∧
      (s'.pairs : Multiset (Int × Int)) =
        (8, 3) ::ₘ ((⟨2, [5, 2, 0], [1, 2, 0]⟩ : ResultHeap Int Int).pairs : Multiset (Int × Int)) :=
  collect_fill_phase 3 ⟨2, [5, 2, 0], [1, 2, 0]⟩ 8 3 (by decide) (by decide)

/-- Instance of collect_replace_evicts_root (C7) on concrete buffers. -/
theorem collect_replace_evicts_root_witness :
    ∃ s', DefaultCollector.collect (3 : Int) (⟨3, [8, 2, 5], [3, 2, 1]⟩ : ResultHeap Int Int)
      1 4 = some s' ∧ s'.nres = 3 ∧
      (s'.pairs : Multiset (Int × Int)) =
        (1, 4) ::ₘ (((⟨3, [8, 2, 5], [3, 2, 1]⟩ : ResultHeap Int Int).pairs :
          Multiset (Int × Int))).erase (8, 3) :=
  collect_replace_evicts_root 3 ⟨3, [8, 2, 5], [3, 2, 1]⟩ 1 4 8 3 (by decide) rfl rfl rfl
    (by decide)

/-- Instance of collect_pairs_from_input (C8) on concrete buffers. -/
theorem collect_pairs_from_input_witness :
    ∃ s', DefaultCollector.collectAll (3 : Int) (⟨0, [0, 0, 0], [0, 0, 0]⟩ : ResultHeap Int Int)
        [(5, 1), (2, 2), (8, 3), (1, 4), (3, 5)] = some s' ∧
      (s'.pairs : Multiset (Int × Int)) ≤
        (([(5, 1), (2, 2), (8, 3), (1, 4), (3, 5)] : List (Int × Int)) : Multiset (Int × Int)) :=
  (collect_pairs_from_input 3 ⟨0, [0, 0, 0], [0, 0, 0]⟩
    [(5, 1), (2, 2), (8, 3), (1, 4), (3, 5)] (by decide) rfl).1

/-- Instance of collect_in_bounds (C9) on concrete buffers. -/
theorem collect_in_bounds_witness :
    (DefaultCollector.collect (3 : Int) (⟨3, [8, 2, 5, 7], [3, 2, 1, 9]⟩ : ResultHeap Int Int)
      1 4).isSome = true ∧
    (DefaultCollector.collect (3 : Int)
      (⟨3, ([8, 2, 5, 7] : List Int).take (3 : Int).toNat,
        ([3, 2, 1, 9] : List Int).take (3 : Int).toNat⟩ : ResultHeap Int Int) 1 4).isSome = true :=
  collect_in_bounds 3 ⟨3, [8, 2, 5, 7], [3, 2, 1, 9]⟩ 1 4 (by decide)

/-- Instance of collect_frame (C10) on concrete buffers. -/
theorem collect_frame_witness :
    ∃ s', DefaultCollector.collect (3 : Int) (⟨1, [5, 7, 9], [1, 8, 6]⟩ : ResultHeap Int Int)
      2 2 = some s' ∧
      s'.bh_val.length = 3 ∧ s'.bh_ids.length = 3 ∧
      ∀ i, s'.nres.toNat ≤ i →
        s'.bh_val[i]? = ([5, 7, 9] : List Int)[i]? ∧ s'.bh_ids[i]? = ([1, 8, 6] : List Int)[i]? :=
  collect_frame 3 ⟨1, [5, 7, 9], [1, 8, 6]⟩ 2 2 (by decide)

/-- Instance of collect_count_min (C11) on concrete buffers. -/
theorem collect_count_min_witness :
    Pre (3 : Int) (⟨0, [0, 0, 0], [0, 0, 0]⟩ : ResultHeap Int Int) ∧
    ((∃ s', DefaultCollector.collectAll (3 : Int) (⟨0, [0, 0, 0], [0, 0, 0]⟩ : ResultHeap Int Int)
        [(5, 1), (2, 2)] = some s' ∧
      s'.nres = min ((([(5, 1), (2, 2)] : List (Int × Int)).length : Nat) : Int) 3 ∧
      (((([(5, 1), (2, 2)] : List (Int × Int)).length : Nat) : Int) < 3 →
        (s'.pairs : Multiset (Int × Int)) =
          (([(5, 1), (2, 2)] : List (Int × Int)) : Multiset (Int × Int)))) ∧
    (∀ m, ∃ s', DefaultCollector.collectAll (3 : Int)
        (⟨0, [0, 0, 0], [0, 0, 0]⟩ : ResultHeap Int Int)
        (([(5, 1), (2, 2)] : List (Int × Int)).take m) = some s' ∧
      s'.nres = min (((([(5, 1), (2, 2)] : List (Int × Int)).take m).length : Nat) : Int) 3) ∧
    (∀ (t : ResultHeap Int Int) (more : List (Int × Int)), Pre 3 t → t.nres = 3 →
      ∃ t', DefaultCollector.collectAll 3 t more = some t' ∧ t'.nres = 3)) :=
  ⟨by decide, collect_count_min 3 ⟨0, [0, 0, 0], [0, 0, 0]⟩ [(5, 1), (2, 2)] (by decide) rfl⟩

/-- Instance of collect_root_antitone (C12) on concrete buffers. -/
theorem collect_root_antitone_witness :
    ∃ s' top', DefaultCollector.collect (3 : Int)
        (⟨3, [8, 2, 5], [3, 2, 1]⟩ : ResultHeap Int Int) 1 4 = some s' ∧
      s'.bh_val[0]? = some top' ∧ top' ≤ 8 ∧ ∀ x ∈ s'.dists, x ≤ top' :=
  collect_root_antitone 3 ⟨3, [8, 2, 5], [3, 2, 1]⟩ 1 4 8 (by decide) rfl (by
    intro i c hc hci a b ha hb
    have hc3 : c < 3 := hc
    have hi : i = 0 := by omega
    subst hi
    have hc' : c = 1 ∨ c = 2 := by omega
    rcases hc' with rfl | rfl <;> simp at ha hb <;> omega) rfl

/-- Instance of collect_order_independent (C13) on concrete buffers. -/
theorem collect_order_independent_witness :
    ∃ t₁ t₂, DefaultCollector.collectAll (2 : Int) (⟨0, [0, 0], [0, 0]⟩ : ResultHeap Int Int)
        [(5, 1), (2, 2), (8, 3)] = some t₁ ∧
      DefaultCollector.collectAll (2 : Int) (⟨0, [7, 7], [9, 9]⟩ : ResultHeap Int Int)
        [(8, 3), (5, 1), (2, 2)] = some t₂ ∧ t₁.nres = t₂.nres ∧
      (t₁.dists : Multiset Int) = (t₂.dists : Multiset Int) :=
  collect_order_independent 2 ⟨0, [0, 0], [0, 0]⟩ ⟨0, [7, 7], [9, 9]⟩
    [(5, 1), (2, 2), (8, 3)] [(8, 3), (5, 1), (2, 2)] (by decide) (by decide) rfl rfl
    (by decide)

/-! ## Distances with NaN -/

/-- C3 as worded, without a condition on the distances, fails: with `k = 2`, one
retained distance `5` and the candidate NaN, the fill branch pushes the
candidate untested; the first two entries are then `5` and NaN, and `5 ≥ NaN`
is false, so they do not form a max-heap. -/
theorem collect_heap_preserved_nan :
    Pre (2 : Int) (⟨1, [.num 5, .num 0], [1, 0]⟩ : ResultHeap FloatVal Int) ∧
    IsMaxHeap (1 : Int).toNat [FloatVal.num 5, FloatVal.num 0] ∧
    DefaultCollector.collect (2 : Int)
        (⟨1, [.num 5, .num 0], [1, 0]⟩ : ResultHeap FloatVal Int) .nan 7
      = some ⟨2, [.num 5, .nan], [1, 7]⟩ ∧
    ¬ ∃ s', DefaultCollector.collect (2 : Int)
        (⟨1, [.num 5, .num 0], [1, 0]⟩ : ResultHeap FloatVal Int) .nan 7 = some s' ∧
      IsMaxHeap s'.nres.toNat s'.bh_val := by
  have hrun : DefaultCollector.collect (2 : Int)
      (⟨1, [.num 5, .num 0], [1, 0]⟩ : ResultHeap FloatVal Int) .nan 7
      = some ⟨2, [.num 5, .nan], [1, 7]⟩ := by decide
  refine ⟨by decide, ?_, hrun, ?_⟩
  · intro i c hc hci
    have hc1 : c < 1 := hc
    omega
  · rintro ⟨s', hs, hh⟩
    rw [hrun] at hs
    cases hs
    have h := hh 0 1 (by decide) (Or.inl rfl) (.num 5) .nan rfl rfl
    revert h
    decide

/-- C12 as worded, without a condition on the distances, fails: with `k = 1`
and the one-entry heap `[NaN]` every candidate is discarded (`val < NaN` is
false), the root stays NaN, and `NaN ≤ NaN` is false: the root after the call
is not `≤` the root before it, nor `≥` the retained distance. -/
theorem collect_root_antitone_nan :
    Pre (1 : Int) (⟨1, [.nan], [1]⟩ : ResultHeap FloatVal Int) ∧
    IsMaxHeap (1 : Int).toNat [FloatVal.nan] ∧
    DefaultCollector.collect (1 : Int) (⟨1, [.nan], [1]⟩ : ResultHeap FloatVal Int) (.num 1) 2
      = some ⟨1, [.nan], [1]⟩ ∧
    ¬ ∃ s' top', DefaultCollector.collect (1 : Int)
        (⟨1, [.nan], [1]⟩ : ResultHeap FloatVal Int) (.num 1) 2 = some s' ∧
      s'.bh_val[0]? = some top' ∧ top' ≤ FloatVal.nan ∧ ∀ x ∈ s'.dists, x ≤ top' := by
  have hrun : DefaultCollector.collect (1 : Int)
      (⟨1, [.nan], [1]⟩ : ResultHeap FloatVal Int) (.num 1) 2 = some ⟨1, [.nan], [1]⟩ := by
    decide
  refine ⟨by decide, ?_, hrun, ?_⟩
  · intro i c hc hci
    have hc1 : c < 1 := hc
    omega
  · rintro ⟨s', top', hs, ht, hle, -⟩
    rw [hrun] at hs
    cases hs
    simp only [List.getElem?_cons_zero, Option.some.injEq] at ht
    subst ht
    revert hle
    decide

/-- C13 as worded, without a condition on the distances, fails: with `k = 1`
the candidates `(NaN, 1), (1, 2)` end with the retained distance NaN (the
second candidate is discarded, `1 < NaN` is false), while the permutation
`(1, 2), (NaN, 1)` ends with the retained distance `1`. -/
theorem collect_order_independent_nan :
    Pre (1 : Int) (⟨0, [.num 0], [0]⟩ : ResultHeap FloatVal Int) ∧
    ([(.nan, 1), (.num 1, 2)] : List (FloatVal × Int)).Perm [(.num 1, 2), (.nan, 1)] ∧
    DefaultCollector.collectAll (1 : Int) (⟨0, [.num 0], [0]⟩ : ResultHeap FloatVal Int)
        [(.nan, 1), (.num 1, 2)] = some ⟨1, [.nan], [1]⟩ ∧
    DefaultCollector.collectAll (1 : Int) (⟨0, [.num 0], [0]⟩ : ResultHeap FloatVal Int)
        [(.num 1, 2), (.nan, 1)] = some ⟨1, [.num 1], [2]⟩ ∧
    ¬ ∃ t₁ t₂, DefaultCollector.collectAll (1 : Int)
          (⟨0, [.num 0], [0]⟩ : ResultHeap FloatVal Int) [(.nan, 1), (.num 1, 2)] = some t₁ ∧
        DefaultCollector.collectAll (1 : Int)
          (⟨0, [.num 0], [0]⟩ : ResultHeap FloatVal Int) [(.num 1, 2), (.nan, 1)] = some t₂ ∧
        t₁.nres = t₂.nres ∧ (t₁.dists : Multiset FloatVal) = (t₂.dists : Multiset FloatVal) := by
  have h₁ : DefaultCollector.collectAll (1 : Int) (⟨0, [.num 0], [0]⟩ : ResultHeap FloatVal Int)
      [(.nan, 1), (.num 1, 2)] = some ⟨1, [.nan], [1]⟩ := by decide
  have h₂ : DefaultCollector.collectAll (1 : Int) (⟨0, [.num 0], [0]⟩ : ResultHeap FloatVal Int)
      [(.num 1, 2), (.nan, 1)] = some ⟨1, [.num 1], [2]⟩ := by decide
  refine ⟨by decide, List.Perm.swap _ _ _, h₁, h₂, ?_⟩
  rintro ⟨t₁, t₂, e₁, e₂, -, hd⟩
  rw [h₁] at e₁
  rw [h₂] at e₂
  cases e₁
  cases e₂
  revert hd
  decide

end faiss
